import Mathlib

/-!
Verification of the polonius naive datalog engine
(`src/polonius-engine/src/output/naive.rs`, function `compute`).

The engine takes a bundle of input relations (`AllFacts`), synthesizes
liveness facts for universal regions, and then runs a round loop applying
six monotone datalog rules until a fixpoint is reached, producing the
derived relations `subset`, `requires`, `borrow_live_at` and `errors`.

The shallow embedding below models atoms (Region, Loan, Point) as natural
numbers and relations as `Finset`s of tuples.  The datafrog semi-naive
round loop is modelled as naive iteration of a single monotone `step`
function on the four derived relations: a tuple enters a datafrog
variable's `recent` partition exactly once before being merged to
`stable`, so the set of tuples present after round `n` is the `n`-fold
iterate of `step` on the initial state, and the completed relations are
the least fixpoint, reached after a number of rounds bounded by the size
of the tuple universe.  The per-round cleanup that drops reflexive
`subset` tuples from `recent` before any index is built is modelled by
filtering reflexive tuples out of every batch of tuples entering the
`subset` relation (including the initial `outlives` load, which also
passes through `recent` before ever reaching `stable`).

The source contains one reference to an undeclared variable
(`new_borrow_live_at`), a leftover keyed copy of `borrow_live_at` that no
rule consumes; it is omitted here, and the `errors` rule is the
intersection documented in the source (`errors(B, P) :- invalidates(B, P),
borrow_live_at(B, P)`).
-/

namespace Polonius

/-- The seven input relations of `AllFacts`, with the field orientations
used by `compute`: `cfg_edge : (Point, Point)`, `outlives` and
`borrow_region : (Region, _, Point)`, `region_live_at : (Region, Point)`,
`killed : (Loan, Point)`, and `invalidates : (Point, Loan)` (the source
destructures `invalidates` tuples as `(p, b)` when loading them). -/
structure AllFacts where
  cfg_edge : Finset (Nat × Nat)
  universal_region : Finset Nat
  outlives : Finset (Nat × Nat × Nat)
  borrow_region : Finset (Nat × Nat × Nat)
  region_live_at : Finset (Nat × Nat)
  killed : Finset (Nat × Nat)
  invalidates : Finset (Nat × Nat)

/-- All points occurring as an endpoint of some `cfg_edge` tuple
(the `all_points` set built at the top of `compute`). -/
def allPoints (f : AllFacts) : Finset Nat :=
  f.cfg_edge.image Prod.fst ∪ f.cfg_edge.image Prod.snd

/-- The `region_live_at` relation after the driver's synthesis step:
the input facts extended with `(r, p)` for every universal region `r`
and every point `p` of `allPoints`. -/
def rla (f : AllFacts) : Finset (Nat × Nat) :=
  f.region_live_at ∪ f.universal_region ×ˢ allPoints f

/-- The `invalidates` facts reoriented as `(Loan, Point)` keys, as the
source does when loading them into the `invalidates` variable. -/
def invalidatesBP (f : AllFacts) : Finset (Nat × Nat) :=
  f.invalidates.image (fun t => (t.2, t.1))

/-- Tuples derived by the transitivity rule
`subset(R1, R3, P) :- subset(R1, R2, P), subset(R2, R3, P)`. -/
def transDerived (s : Finset (Nat × Nat × Nat)) : Finset (Nat × Nat × Nat) :=
  ((s ×ˢ s).filter (fun t => t.1.2.1 = t.2.1 ∧ t.1.2.2 = t.2.2.2)).image
    (fun t => (t.1.1, t.2.2.1, t.1.2.2))

/-- Tuples derived by the CFG-propagation rule
`subset(R1, R2, Q) :- subset(R1, R2, P), cfg_edge(P, Q),
region_live_at(R1, Q), region_live_at(R2, Q)`. -/
def subsetCfgDerived (f : AllFacts) (s : Finset (Nat × Nat × Nat)) :
    Finset (Nat × Nat × Nat) :=
  ((s ×ˢ f.cfg_edge).filter
      (fun t => t.1.2.2 = t.2.1 ∧ (t.1.1, t.2.2) ∈ rla f ∧ (t.1.2.1, t.2.2) ∈ rla f)).image
    (fun t => (t.1.1, t.1.2.1, t.2.2))

/-- Tuples derived by the rule
`requires(R2, B, P) :- requires(R1, B, P), subset(R1, R2, P)`. -/
def requiresSubsetDerived (req sub : Finset (Nat × Nat × Nat)) :
    Finset (Nat × Nat × Nat) :=
  ((req ×ˢ sub).filter (fun t => t.1.1 = t.2.1 ∧ t.1.2.2 = t.2.2.2)).image
    (fun t => (t.2.2.1, t.1.2.1, t.1.2.2))

/-- Tuples derived by the kill-aware CFG-propagation rule
`requires(R, B, Q) :- requires(R, B, P), !killed(B, P), cfg_edge(P, Q),
region_live_at(R, Q)` (the antijoin against `killed` drops every tuple
whose `(B, P)` key appears in `killed`). -/
def requiresCfgDerived (f : AllFacts) (req : Finset (Nat × Nat × Nat)) :
    Finset (Nat × Nat × Nat) :=
  ((req ×ˢ f.cfg_edge).filter
      (fun t => t.1.2.2 = t.2.1 ∧ (t.1.2.1, t.1.2.2) ∉ f.killed ∧ (t.1.1, t.2.2) ∈ rla f)).image
    (fun t => (t.1.1, t.1.2.1, t.2.2))

/-- Tuples derived by the rule
`borrow_live_at(B, P) :- requires(R, B, P), region_live_at(R, P)`. -/
def blaDerived (f : AllFacts) (req : Finset (Nat × Nat × Nat)) : Finset (Nat × Nat) :=
  (req.filter (fun t => (t.1, t.2.2) ∈ rla f)).image (fun t => (t.2.1, t.2.2))

/-- Tuples derived by the rule
`errors(B, P) :- invalidates(B, P), borrow_live_at(B, P)`. -/
def errorsDerived (f : AllFacts) (bla : Finset (Nat × Nat)) : Finset (Nat × Nat) :=
  invalidatesBP f ∩ bla

/-- The four derived relations of the engine. -/
@[ext]
structure State where
  subset : Finset (Nat × Nat × Nat)
  requires : Finset (Nat × Nat × Nat)
  borrow_live_at : Finset (Nat × Nat)
  errors : Finset (Nat × Nat)

/-- One round of the loop: every rule is applied to the current state and
its results are merged in.  Tuples entering `subset` pass through the
cleanup step first, which discards every reflexive tuple `(r, r, p)`. -/
def step (f : AllFacts) (s : State) : State where
  subset := s.subset ∪
    ((transDerived s.subset ∪ subsetCfgDerived f s.subset).filter (fun t => t.1 ≠ t.2.1))
  requires := s.requires ∪
    (requiresSubsetDerived s.requires s.subset ∪ requiresCfgDerived f s.requires)
  borrow_live_at := s.borrow_live_at ∪ blaDerived f s.requires
  errors := s.errors ∪ errorsDerived f s.borrow_live_at

/-- The initial state: `subset` is loaded from `outlives` (reflexive
tuples are discarded by the cleanup step before they ever reach the
stable partition), `requires` from `borrow_region`, and the other two
relations start empty. -/
def initState (f : AllFacts) : State where
  subset := f.outlives.filter (fun t => t.1 ≠ t.2.1)
  requires := f.borrow_region
  borrow_live_at := ∅
  errors := ∅

/-- The state after `n` rounds of the loop. -/
def iterateStep (f : AllFacts) : Nat → State
  | 0 => initState f
  | n + 1 => step f (iterateStep f n)

/-- All region atoms occurring in the input facts. -/
def atomsR (f : AllFacts) : Finset Nat :=
  f.universal_region ∪ f.outlives.image (fun t => t.1) ∪
    f.outlives.image (fun t => t.2.1) ∪ f.borrow_region.image (fun t => t.1) ∪
    f.region_live_at.image Prod.fst

/-- All loan atoms occurring in the input facts. -/
def atomsL (f : AllFacts) : Finset Nat :=
  f.borrow_region.image (fun t => t.2.1) ∪ f.killed.image Prod.fst ∪
    f.invalidates.image Prod.snd

/-- All point atoms occurring in the input facts. -/
def atomsP (f : AllFacts) : Finset Nat :=
  allPoints f ∪ f.outlives.image (fun t => t.2.2) ∪
    f.borrow_region.image (fun t => t.2.2) ∪ f.region_live_at.image Prod.snd ∪
    f.killed.image Prod.snd ∪ f.invalidates.image Prod.fst

/-- The size of the universe every derived tuple lives in: an upper bound
on the total number of tuples the four derived relations can ever hold,
and hence on the number of growing rounds of the loop. -/
def bigBound (f : AllFacts) : Nat :=
  (atomsR f ×ˢ atomsR f ×ˢ atomsP f).card + (atomsR f ×ˢ atomsL f ×ˢ atomsP f).card +
    2 * (atomsL f ×ˢ atomsP f).card

/-- The completed relations returned by the loop: the loop halts at the
first round that adds nothing, and iterating `step` `bigBound f + 1`
times is proved below to reach that fixpoint. -/
def finalState (f : AllFacts) : State :=
  iterateStep f (bigBound f + 1)

/-- The result bundle built by `compute`: the `errors` map is always
populated from the completed `errors` relation; the four diagnostic
projections are populated only when `dump_enabled` is set. -/
structure Output where
  errors : Nat → List Nat
  subset : Nat → Nat → Finset Nat
  restricts : Nat → Nat → Finset Nat
  region_live_at : Nat → List Nat
  borrow_live_at : Nat → List Nat

/-- The whole engine: synthesize liveness facts, run the loop to its
fixpoint, and project the completed relations into the output maps.
Per-point sequences are sorted by the atom's total order, matching the
iteration order of the sorted completed relations in the source. -/
def compute (dump_enabled : Bool) (f : AllFacts) : Output where
  errors := fun p =>
    (((finalState f).errors.filter (fun t => t.2 = p)).image Prod.fst).sort (· ≤ ·)
  subset := fun p r1 =>
    if dump_enabled then
      (((finalState f).subset.filter (fun t => t.2.2 = p ∧ t.1 = r1)).image
        (fun t => t.2.1))
    else ∅
  restricts := fun p r =>
    if dump_enabled then
      (((finalState f).requires.filter (fun t => t.2.2 = p ∧ t.1 = r)).image
        (fun t => t.2.1))
    else ∅
  region_live_at := fun p =>
    if dump_enabled then
      (((rla f).filter (fun t => t.2 = p)).image Prod.fst).sort (· ≤ ·)
    else []
  borrow_live_at := fun p =>
    if dump_enabled then
      (((finalState f).borrow_live_at.filter (fun t => t.2 = p)).image Prod.fst).sort (· ≤ ·)
    else []

/-- The quantity checked by the diagnostics-mode assertion on the
completed `subset` relation: the number of reflexive tuples it holds
(`subset.iter().filter(|&(r1, r2, _)| r1 == r2).count()`). -/
def subsetSymmetryCount (f : AllFacts) : Nat :=
  ((finalState f).subset.filter (fun t => t.1 = t.2.1)).card

/-- A fact bundle whose `subset` constraints form a two-cycle at point 7:
`outlives(0, 1, 7)` and `outlives(1, 0, 7)`. -/
def exFactsC : AllFacts where
  cfg_edge := ∅
  universal_region := ∅
  outlives := {(0, 1, 7), (1, 0, 7)}
  borrow_region := ∅
  region_live_at := ∅
  killed := ∅
  invalidates := ∅

/-- A fact bundle with a single reflexive `outlives` tuple. -/
def exFactsD : AllFacts where
  cfg_edge := ∅
  universal_region := ∅
  outlives := {(5, 5, 3)}
  borrow_region := ∅
  region_live_at := ∅
  killed := ∅
  invalidates := ∅

/-- A fact bundle with a two-step `outlives` chain at point 7:
`outlives(0, 1, 7)` and `outlives(1, 2, 7)`. -/
def exFactsT : AllFacts where
  cfg_edge := ∅
  universal_region := ∅
  outlives := {(0, 1, 7), (1, 2, 7)}
  borrow_region := ∅
  region_live_at := ∅
  killed := ∅
  invalidates := ∅

/-- Scenario A of the spec: a single edge `p0 → p1` (points 0 and 1),
universal region 5 live everywhere, `borrow_region(5, loan 0, point 0)`,
an invalidation of loan 0 at point 1, and nothing killed. -/
def exFactsA : AllFacts where
  cfg_edge := {(0, 1)}
  universal_region := {5}
  outlives := ∅
  borrow_region := {(5, 0, 0)}
  region_live_at := ∅
  killed := ∅
  invalidates := {(1, 0)}

/-! ### Membership characterizations of the rule operations -/

lemma mem_transDerived {s : Finset (Nat × Nat × Nat)} {r1 r3 p : Nat} :
    (r1, r3, p) ∈ transDerived s ↔ ∃ r2, (r1, r2, p) ∈ s ∧ (r2, r3, p) ∈ s := by
  simp only [transDerived, Finset.mem_image, Finset.mem_filter, Finset.mem_product]
  constructor
  · rintro ⟨⟨⟨a1, a2, a3⟩, ⟨b1, b2, b3⟩⟩, ⟨⟨hA, hB⟩, h1, h2⟩, hout⟩
    simp only at h1 h2 hout
    simp only [Prod.mk.injEq] at hout
    obtain ⟨rfl, rfl, rfl⟩ := hout
    subst h1 h2
    exact ⟨a2, hA, hB⟩
  · rintro ⟨r2, h1, h2⟩
    exact ⟨⟨(r1, r2, p), (r2, r3, p)⟩, ⟨⟨h1, h2⟩, rfl, rfl⟩, rfl⟩

lemma mem_subsetCfgDerived {f : AllFacts} {s : Finset (Nat × Nat × Nat)} {r1 r2 q : Nat} :
    (r1, r2, q) ∈ subsetCfgDerived f s ↔
      ∃ p, (r1, r2, p) ∈ s ∧ (p, q) ∈ f.cfg_edge ∧ (r1, q) ∈ rla f ∧ (r2, q) ∈ rla f := by
  simp only [subsetCfgDerived, Finset.mem_image, Finset.mem_filter, Finset.mem_product]
  constructor
  · rintro ⟨⟨⟨a1, a2, a3⟩, ⟨b1, b2⟩⟩, ⟨⟨hA, hB⟩, h1, h2, h3⟩, hout⟩
    simp only at h1 h2 h3 hout
    simp only [Prod.mk.injEq] at hout
    obtain ⟨rfl, rfl, rfl⟩ := hout
    subst h1
    exact ⟨a3, hA, hB, h2, h3⟩
  · rintro ⟨p, h1, h2, h3, h4⟩
    exact ⟨⟨(r1, r2, p), (p, q)⟩, ⟨⟨h1, h2⟩, rfl, h3, h4⟩, rfl⟩

lemma mem_requiresSubsetDerived {req sub : Finset (Nat × Nat × Nat)} {r2 b p : Nat} :
    (r2, b, p) ∈ requiresSubsetDerived req sub ↔
      ∃ r1, (r1, b, p) ∈ req ∧ (r1, r2, p) ∈ sub := by
  simp only [requiresSubsetDerived, Finset.mem_image, Finset.mem_filter, Finset.mem_product]
  constructor
  · rintro ⟨⟨⟨a1, a2, a3⟩, ⟨b1, b2, b3⟩⟩, ⟨⟨hA, hB⟩, h1, h2⟩, hout⟩
    simp only at h1 h2 hout
    simp only [Prod.mk.injEq] at hout
    obtain ⟨rfl, rfl, rfl⟩ := hout
    subst h1 h2
    exact ⟨a1, hA, hB⟩
  · rintro ⟨r1, h1, h2⟩
    exact ⟨⟨(r1, b, p), (r1, r2, p)⟩, ⟨⟨h1, h2⟩, rfl, rfl⟩, rfl⟩

lemma mem_requiresCfgDerived {f : AllFacts} {req : Finset (Nat × Nat × Nat)} {r b q : Nat} :
    (r, b, q) ∈ requiresCfgDerived f req ↔
      ∃ p, (r, b, p) ∈ req ∧ (b, p) ∉ f.killed ∧ (p, q) ∈ f.cfg_edge ∧ (r, q) ∈ rla f := by
  simp only [requiresCfgDerived, Finset.mem_image, Finset.mem_filter, Finset.mem_product]
  constructor
  · rintro ⟨⟨⟨a1, a2, a3⟩, ⟨b1, b2⟩⟩, ⟨⟨hA, hB⟩, h1, h2, h3⟩, hout⟩
    simp only at h1 h2 h3 hout
    simp only [Prod.mk.injEq] at hout
    obtain ⟨rfl, rfl, rfl⟩ := hout
    subst h1
    exact ⟨a3, hA, h2, hB, h3⟩
  · rintro ⟨p, h1, h2, h3, h4⟩
    exact ⟨⟨(r, b, p), (p, q)⟩, ⟨⟨h1, h3⟩, rfl, h2, h4⟩, rfl⟩

lemma mem_blaDerived {f : AllFacts} {req : Finset (Nat × Nat × Nat)} {b p : Nat} :
    (b, p) ∈ blaDerived f req ↔ ∃ r, (r, b, p) ∈ req ∧ (r, p) ∈ rla f := by
  simp only [blaDerived, Finset.mem_image, Finset.mem_filter]
  constructor
  · rintro ⟨⟨a1, a2, a3⟩, ⟨hA, h1⟩, hout⟩
    simp only at h1 hout
    simp only [Prod.mk.injEq] at hout
    obtain ⟨rfl, rfl⟩ := hout
    exact ⟨a1, hA, h1⟩
  · rintro ⟨r, h1, h2⟩
    exact ⟨(r, b, p), ⟨h1, h2⟩, rfl⟩

lemma mem_errorsDerived {f : AllFacts} {bla : Finset (Nat × Nat)} {b p : Nat} :
    (b, p) ∈ errorsDerived f bla ↔ (p, b) ∈ f.invalidates ∧ (b, p) ∈ bla := by
  simp only [errorsDerived, Finset.mem_inter, invalidatesBP, Finset.mem_image]
  constructor
  · rintro ⟨⟨⟨x1, x2⟩, hx, hout⟩, hb⟩
    simp only [Prod.mk.injEq] at hout
    obtain ⟨rfl, rfl⟩ := hout
    exact ⟨hx, hb⟩
  · rintro ⟨h1, h2⟩
    exact ⟨⟨(p, b), h1, rfl⟩, h2⟩

/-! ### Monotonicity of the round step -/

lemma subset_le_step (f : AllFacts) (s : State) : s.subset ⊆ (step f s).subset :=
  Finset.subset_union_left

lemma requires_le_step (f : AllFacts) (s : State) : s.requires ⊆ (step f s).requires :=
  Finset.subset_union_left

lemma bla_le_step (f : AllFacts) (s : State) :
    s.borrow_live_at ⊆ (step f s).borrow_live_at :=
  Finset.subset_union_left

lemma errors_le_step (f : AllFacts) (s : State) : s.errors ⊆ (step f s).errors :=
  Finset.subset_union_left

/-- The total number of tuples currently held by the four derived
relations. -/
def stateCard (s : State) : Nat :=
  s.subset.card + s.requires.card + s.borrow_live_at.card + s.errors.card

lemma stateCard_lt_of_step_ne (f : AllFacts) (s : State) (h : step f s ≠ s) :
    stateCard s < stateCard (step f s) := by
  have h1 := Finset.card_le_card (subset_le_step f s)
  have h2 := Finset.card_le_card (requires_le_step f s)
  have h3 := Finset.card_le_card (bla_le_step f s)
  have h4 := Finset.card_le_card (errors_le_step f s)
  by_contra hle
  push_neg at hle
  unfold stateCard at hle
  apply h
  ext1
  · exact (Finset.eq_of_subset_of_card_le (subset_le_step f s) (by omega)).symm
  · exact (Finset.eq_of_subset_of_card_le (requires_le_step f s) (by omega)).symm
  · exact (Finset.eq_of_subset_of_card_le (bla_le_step f s) (by omega)).symm
  · exact (Finset.eq_of_subset_of_card_le (errors_le_step f s) (by omega)).symm

/-! ### The tuple universe and its preservation -/

/-- Every derived relation stays inside the universe of tuples built from
the atoms of the input facts. -/
def InU (f : AllFacts) (s : State) : Prop :=
  s.subset ⊆ atomsR f ×ˢ atomsR f ×ˢ atomsP f ∧
    s.requires ⊆ atomsR f ×ˢ atomsL f ×ˢ atomsP f ∧
    s.borrow_live_at ⊆ atomsL f ×ˢ atomsP f ∧
    s.errors ⊆ atomsL f ×ˢ atomsP f

lemma allPoints_subset_atomsP (f : AllFacts) : allPoints f ⊆ atomsP f := by
  intro x hx
  unfold atomsP
  exact Finset.mem_union_left _ (Finset.mem_union_left _ (Finset.mem_union_left _
    (Finset.mem_union_left _ (Finset.mem_union_left _ hx))))

lemma cfg_snd_mem_atomsP (f : AllFacts) {p q : Nat} (h : (p, q) ∈ f.cfg_edge) :
    q ∈ atomsP f :=
  allPoints_subset_atomsP f
    (Finset.mem_union_right _ (Finset.mem_image_of_mem Prod.snd h))

lemma invalidatesBP_subset (f : AllFacts) : invalidatesBP f ⊆ atomsL f ×ˢ atomsP f := by
  intro x hx
  simp only [invalidatesBP, Finset.mem_image] at hx
  obtain ⟨⟨p, b⟩, hpb, rfl⟩ := hx
  rw [Finset.mem_product]
  refine ⟨Finset.mem_union_right _ (Finset.mem_image_of_mem Prod.snd hpb), ?_⟩
  unfold atomsP
  exact Finset.mem_union_right _ (Finset.mem_image_of_mem Prod.fst hpb)

lemma InU_initState (f : AllFacts) : InU f (initState f) := by
  refine ⟨?_, ?_, by simp [initState], by simp [initState]⟩
  · intro x hx
    have hx' : x ∈ f.outlives := Finset.mem_of_mem_filter x hx
    rw [Finset.mem_product, Finset.mem_product]
    refine ⟨?_, ?_, ?_⟩
    · unfold atomsR
      exact Finset.mem_union_left _ (Finset.mem_union_left _ (Finset.mem_union_left _
        (Finset.mem_union_right _ (Finset.mem_image_of_mem _ hx'))))
    · unfold atomsR
      exact Finset.mem_union_left _ (Finset.mem_union_left _
        (Finset.mem_union_right _ (Finset.mem_image_of_mem _ hx')))
    · unfold atomsP
      exact Finset.mem_union_left _ (Finset.mem_union_left _ (Finset.mem_union_left _
        (Finset.mem_union_left _ (Finset.mem_union_right _
          (Finset.mem_image_of_mem _ hx')))))
  · intro x hx
    rw [Finset.mem_product, Finset.mem_product]
    refine ⟨?_, ?_, ?_⟩
    · unfold atomsR
      exact Finset.mem_union_left _ (Finset.mem_union_right _
        (Finset.mem_image_of_mem _ hx))
    · unfold atomsL
      exact Finset.mem_union_left _ (Finset.mem_union_left _
        (Finset.mem_image_of_mem _ hx))
    · unfold atomsP
      exact Finset.mem_union_left _ (Finset.mem_union_left _ (Finset.mem_union_left _
        (Finset.mem_union_right _ (Finset.mem_image_of_mem _ hx))))

lemma InU_step (f : AllFacts) (s : State) (h : InU f s) : InU f (step f s) := by
  obtain ⟨hsub, hreq, hbla, herr⟩ := h
  have memR1 : ∀ x ∈ s.subset, x.1 ∈ atomsR f := by
    intro x hx; exact (Finset.mem_product.mp (hsub hx)).1
  have memR2 : ∀ x ∈ s.subset, x.2.1 ∈ atomsR f := by
    intro x hx
    exact (Finset.mem_product.mp (Finset.mem_product.mp (hsub hx)).2).1
  have memP3 : ∀ x ∈ s.subset, x.2.2 ∈ atomsP f := by
    intro x hx
    exact (Finset.mem_product.mp (Finset.mem_product.mp (hsub hx)).2).2
  have memQR : ∀ x ∈ s.requires, x.1 ∈ atomsR f := by
    intro x hx; exact (Finset.mem_product.mp (hreq hx)).1
  have memQL : ∀ x ∈ s.requires, x.2.1 ∈ atomsL f := by
    intro x hx
    exact (Finset.mem_product.mp (Finset.mem_product.mp (hreq hx)).2).1
  have memQP : ∀ x ∈ s.requires, x.2.2 ∈ atomsP f := by
    intro x hx
    exact (Finset.mem_product.mp (Finset.mem_product.mp (hreq hx)).2).2
  refine ⟨?_, ?_, ?_, ?_⟩
  · intro x hx
    rcases Finset.mem_union.mp hx with hx | hx
    · exact hsub hx
    · have hx' := Finset.mem_of_mem_filter x hx
      obtain ⟨x1, x2, x3⟩ := x
      rcases Finset.mem_union.mp hx' with hx' | hx'
      · obtain ⟨r2, hA, hB⟩ := mem_transDerived.mp hx'
        rw [Finset.mem_product, Finset.mem_product]
        exact ⟨memR1 (x1, r2, x3) hA, memR2 (r2, x2, x3) hB, memP3 (x1, r2, x3) hA⟩
      · obtain ⟨p, hA, hE, _, _⟩ := mem_subsetCfgDerived.mp hx'
        rw [Finset.mem_product, Finset.mem_product]
        exact ⟨memR1 (x1, x2, p) hA, memR2 (x1, x2, p) hA, cfg_snd_mem_atomsP f hE⟩
  · intro x hx
    rcases Finset.mem_union.mp hx with hx | hx
    · exact hreq hx
    · obtain ⟨x1, x2, x3⟩ := x
      rcases Finset.mem_union.mp hx with hx | hx
      · obtain ⟨r1, hA, hB⟩ := mem_requiresSubsetDerived.mp hx
        rw [Finset.mem_product, Finset.mem_product]
        exact ⟨memR2 (r1, x1, x3) hB, memQL (r1, x2, x3) hA, memQP (r1, x2, x3) hA⟩
      · obtain ⟨p, hA, _, hE, _⟩ := mem_requiresCfgDerived.mp hx
        rw [Finset.mem_product, Finset.mem_product]
        exact ⟨memQR (x1, x2, p) hA, memQL (x1, x2, p) hA, cfg_snd_mem_atomsP f hE⟩
  · intro x hx
    rcases Finset.mem_union.mp hx with hx | hx
    · exact hbla hx
    · obtain ⟨x1, x2⟩ := x
      obtain ⟨r, hA, _⟩ := mem_blaDerived.mp hx
      rw [Finset.mem_product]
      exact ⟨memQL (r, x1, x2) hA, memQP (r, x1, x2) hA⟩
  · intro x hx
    rcases Finset.mem_union.mp hx with hx | hx
    · exact herr hx
    · exact invalidatesBP_subset f (Finset.mem_inter.mp hx).1

lemma InU_iterate (f : AllFacts) (n : Nat) : InU f (iterateStep f n) := by
  induction n with
  | zero => exact InU_initState f
  | succ n ih => exact InU_step f _ ih

lemma stateCard_le_bigBound (f : AllFacts) (s : State) (h : InU f s) :
    stateCard s ≤ bigBound f := by
  obtain ⟨h1, h2, h3, h4⟩ := h
  have c1 := Finset.card_le_card h1
  have c2 := Finset.card_le_card h2
  have c3 := Finset.card_le_card h3
  have c4 := Finset.card_le_card h4
  unfold stateCard bigBound
  omega

/-! ### The loop reaches its fixpoint within `bigBound` rounds -/

lemma iterate_add_of_fix (f : AllFacts) (n : Nat)
    (h : step f (iterateStep f n) = iterateStep f n) :
    ∀ k, iterateStep f (n + k) = iterateStep f n := by
  intro k
  induction k with
  | zero => rfl
  | succ k ih =>
    have : n + (k + 1) = (n + k) + 1 := by omega
    rw [this]
    show step f (iterateStep f (n + k)) = _
    rw [ih, h]

lemma le_stateCard_iterate (f : AllFacts) (n : Nat)
    (h : ∀ m < n, step f (iterateStep f m) ≠ iterateStep f m) :
    n ≤ stateCard (iterateStep f n) := by
  induction n with
  | zero => exact Nat.zero_le _
  | succ n ih =>
    have hlt := stateCard_lt_of_step_ne f (iterateStep f n) (h n (Nat.lt_succ_self n))
    have hle := ih (fun m hm => h m (hm.trans (Nat.lt_succ_self n)))
    show n + 1 ≤ stateCard (step f (iterateStep f n))
    omega

lemma exists_fix_le_bigBound (f : AllFacts) :
    ∃ n ≤ bigBound f, step f (iterateStep f n) = iterateStep f n := by
  by_contra h
  push_neg at h
  have hall : ∀ m < bigBound f + 1, step f (iterateStep f m) ≠ iterateStep f m :=
    fun m hm => h m (by omega)
  have h1 := le_stateCard_iterate f (bigBound f + 1) hall
  have h2 := stateCard_le_bigBound f _ (InU_iterate f (bigBound f + 1))
  omega

/-- The state after `bigBound f + 1` rounds is a fixpoint of the round
step: this is the state the loop halts in. -/
lemma finalState_fix (f : AllFacts) : step f (finalState f) = finalState f := by
  obtain ⟨n, hn, hfix⟩ := exists_fix_le_bigBound f
  have heq : finalState f = iterateStep f n := by
    have h := iterate_add_of_fix f n hfix (bigBound f + 1 - n)
    have : n + (bigBound f + 1 - n) = bigBound f + 1 := by omega
    rw [this] at h
    exact h
  rw [heq]
  exact hfix

/-! ### Closure and over-approximation facts about the fixpoint -/

lemma final_subset_eq (f : AllFacts) :
    (finalState f).subset ∪
      ((transDerived (finalState f).subset ∪ subsetCfgDerived f (finalState f).subset).filter
        (fun t => t.1 ≠ t.2.1)) = (finalState f).subset :=
  congrArg State.subset (finalState_fix f)

lemma final_requires_eq (f : AllFacts) :
    (finalState f).requires ∪
      (requiresSubsetDerived (finalState f).requires (finalState f).subset ∪
        requiresCfgDerived f (finalState f).requires) = (finalState f).requires :=
  congrArg State.requires (finalState_fix f)

lemma final_bla_eq (f : AllFacts) :
    (finalState f).borrow_live_at ∪ blaDerived f (finalState f).requires =
      (finalState f).borrow_live_at :=
  congrArg State.borrow_live_at (finalState_fix f)

lemma final_errors_eq (f : AllFacts) :
    (finalState f).errors ∪ errorsDerived f (finalState f).borrow_live_at =
      (finalState f).errors :=
  congrArg State.errors (finalState_fix f)

/-- Every tuple of the `subset` relation is irreflexive, in every round. -/
lemma iterate_subset_irrefl (f : AllFacts) (n : Nat) :
    ∀ t ∈ (iterateStep f n).subset, t.1 ≠ t.2.1 := by
  induction n with
  | zero =>
    intro t ht
    exact (Finset.mem_filter.mp ht).2
  | succ n ih =>
    intro t ht
    rcases Finset.mem_union.mp ht with ht | ht
    · exact ih t ht
    · exact (Finset.mem_filter.mp ht).2

/-- Every round only adds tuples: no relation ever loses a tuple from one
round to the next. -/
lemma iterate_le_succ (f : AllFacts) (n : Nat) :
    (iterateStep f n).subset ⊆ (iterateStep f (n + 1)).subset ∧
      (iterateStep f n).requires ⊆ (iterateStep f (n + 1)).requires ∧
      (iterateStep f n).borrow_live_at ⊆ (iterateStep f (n + 1)).borrow_live_at ∧
      (iterateStep f n).errors ⊆ (iterateStep f (n + 1)).errors :=
  ⟨subset_le_step f _, requires_le_step f _, bla_le_step f _, errors_le_step f _⟩

lemma iterate_le_of_le (f : AllFacts) {n m : Nat} (h : n ≤ m) :
    (iterateStep f n).subset ⊆ (iterateStep f m).subset ∧
      (iterateStep f n).requires ⊆ (iterateStep f m).requires ∧
      (iterateStep f n).borrow_live_at ⊆ (iterateStep f m).borrow_live_at ∧
      (iterateStep f n).errors ⊆ (iterateStep f m).errors := by
  induction m with
  | zero =>
    have : n = 0 := Nat.le_zero.mp h
    subst this
    exact ⟨Finset.Subset.refl _, Finset.Subset.refl _, Finset.Subset.refl _,
      Finset.Subset.refl _⟩
  | succ m ih =>
    rcases Nat.lt_or_ge n (m + 1) with hlt | hge
    · have hnm : n ≤ m := by omega
      obtain ⟨a1, a2, a3, a4⟩ := ih hnm
      obtain ⟨b1, b2, b3, b4⟩ := iterate_le_succ f m
      exact ⟨a1.trans b1, a2.trans b2, a3.trans b3, a4.trans b4⟩
    · have : n = m + 1 := by omega
      subst this
      exact ⟨Finset.Subset.refl _, Finset.Subset.refl _, Finset.Subset.refl _,
        Finset.Subset.refl _⟩

/-- In every round, every `errors` tuple comes from an `invalidates` fact
paired with a `borrow_live_at` tuple of the same round. -/
lemma iterate_errors_sound (f : AllFacts) (n : Nat) :
    ∀ b p, (b, p) ∈ (iterateStep f n).errors →
      (p, b) ∈ f.invalidates ∧ (b, p) ∈ (iterateStep f n).borrow_live_at := by
  induction n with
  | zero =>
    intro b p hbp
    simp [iterateStep, initState] at hbp
  | succ n ih =>
    intro b p hbp
    rcases Finset.mem_union.mp hbp with hbp | hbp
    · obtain ⟨h1, h2⟩ := ih b p hbp
      exact ⟨h1, bla_le_step f _ h2⟩
    · obtain ⟨h1, h2⟩ := mem_errorsDerived.mp hbp
      exact ⟨h1, bla_le_step f _ h2⟩

/-- In every round, every `borrow_live_at` tuple is justified by a
`requires` tuple of the same round and a liveness fact. -/
lemma iterate_bla_sound (f : AllFacts) (n : Nat) :
    ∀ b p, (b, p) ∈ (iterateStep f n).borrow_live_at →
      ∃ r, (r, b, p) ∈ (iterateStep f n).requires ∧ (r, p) ∈ rla f := by
  induction n with
  | zero =>
    intro b p hbp
    simp [iterateStep, initState] at hbp
  | succ n ih =>
    intro b p hbp
    rcases Finset.mem_union.mp hbp with hbp | hbp
    · obtain ⟨r, h1, h2⟩ := ih b p hbp
      exact ⟨r, requires_le_step f _ h1, h2⟩
    · obtain ⟨r, h1, h2⟩ := mem_blaDerived.mp hbp
      exact ⟨r, requires_le_step f _ h1, h2⟩

lemma mem_allPoints {f : AllFacts} {p : Nat} :
    p ∈ allPoints f ↔ ∃ q, (p, q) ∈ f.cfg_edge ∨ (q, p) ∈ f.cfg_edge := by
  unfold allPoints
  rw [Finset.mem_union]
  simp only [Finset.mem_image]
  constructor
  · rintro (⟨⟨a, b⟩, hab, rfl⟩ | ⟨⟨a, b⟩, hab, rfl⟩)
    · exact ⟨b, Or.inl hab⟩
    · exact ⟨a, Or.inr hab⟩
  · rintro ⟨q, h | h⟩
    · exact Or.inl ⟨(p, q), h, rfl⟩
    · exact Or.inr ⟨(q, p), h, rfl⟩

/-! ### The claims -/

set_option maxRecDepth 10000

/-- C1: a tuple `(b, p)` is in the finalized `errors` relation iff the
loan/point pair is in the `invalidates` input relation (whose tuples the
source stores as `(p, b)`) and `(b, p)` is in the finalized
`borrow_live_at` relation. -/
theorem C1_errors_iff (f : AllFacts) (b p : Nat) :
    (b, p) ∈ (finalState f).errors ↔
      (p, b) ∈ f.invalidates ∧ (b, p) ∈ (finalState f).borrow_live_at := by
  constructor
  · exact iterate_errors_sound f (bigBound f + 1) b p
  · rintro ⟨h1, h2⟩
    rw [← final_errors_eq f]
    exact Finset.mem_union_right _ (mem_errorsDerived.mpr ⟨h1, h2⟩)

/-- C2: the finalized `subset` relation holds no reflexive tuple, the
diagnostics-mode assertion count of reflexive tuples is zero, and the
per-round pruning never removes a tuple that an earlier round held:
every round's `subset` relation is contained in the next round's. -/
theorem C2_no_reflexive_subset (f : AllFacts) :
    ((finalState f).subset.filter (fun t => t.1 = t.2.1)) = ∅ ∧
      subsetSymmetryCount f = 0 ∧
      ∀ n, (iterateStep f n).subset ⊆ (iterateStep f (n + 1)).subset := by
  have hemp : ((finalState f).subset.filter (fun t => t.1 = t.2.1)) = ∅ := by
    rw [Finset.filter_eq_empty_iff]
    exact iterate_subset_irrefl f (bigBound f + 1)
  refine ⟨hemp, ?_, fun n => (iterate_le_succ f n).1⟩
  unfold subsetSymmetryCount
  rw [hemp]
  rfl

/-- C3 counterexample: with `outlives` forming the two-cycle
`(0, 1, 7)`, `(1, 0, 7)`, the finalized `subset` relation holds both
cycle tuples but not the reflexive tuple `(0, 0, 7)` their composition
would require, because reflexive tuples are pruned every round. -/
theorem C3_counterexample :
    (0, 1, 7) ∈ (finalState exFactsC).subset ∧
      (1, 0, 7) ∈ (finalState exFactsC).subset ∧
      (0, 0, 7) ∉ (finalState exFactsC).subset := by
  decide

/-- C3 (amended): the finalized `subset` relation is transitively closed
per point for all conclusions that are not reflexive: if `subset(r1, r2, p)`
and `subset(r2, r3, p)` hold in the finalized relation and `r1 ≠ r3`, then
`subset(r1, r3, p)` holds in the finalized relation. -/
theorem C3_transitive_of_ne (f : AllFacts) (r1 r2 r3 p : Nat)
    (h1 : (r1, r2, p) ∈ (finalState f).subset)
    (h2 : (r2, r3, p) ∈ (finalState f).subset) (hne : r1 ≠ r3) :
    (r1, r3, p) ∈ (finalState f).subset := by
  rw [← final_subset_eq f]
  refine Finset.mem_union_right _ (Finset.mem_filter.mpr ⟨?_, hne⟩)
  exact Finset.mem_union_left _ (mem_transDerived.mpr ⟨r2, h1, h2⟩)

/-- C3 witness: on the chain `outlives(0, 1, 7)`, `outlives(1, 2, 7)` the
finalized relation holds the composed tuple `(0, 2, 7)`. -/
theorem C3_witness : (0, 2, 7) ∈ (finalState exFactsT).subset :=
  C3_transitive_of_ne exFactsT 0 1 2 7 (by decide) (by decide) (by decide)

/-- C4 counterexample: the reflexive input tuple `outlives(5, 5, 3)` is
pruned by the cleanup step before it ever reaches the stable partition,
so it is absent from the finalized `subset` relation. -/
theorem C4_counterexample :
    (5, 5, 3) ∈ exFactsD.outlives ∧ (5, 5, 3) ∉ (finalState exFactsD).subset := by
  decide

/-- C4 (amended): every non-reflexive `outlives` tuple `(r1, r2, p)` with
`r1 ≠ r2` is contained in the finalized `subset` relation; a reflexive
`outlives` tuple is discarded by the per-round cleanup instead. -/
theorem C4_outlives_in_subset (f : AllFacts) (r1 r2 p : Nat)
    (h : (r1, r2, p) ∈ f.outlives) (hne : r1 ≠ r2) :
    (r1, r2, p) ∈ (finalState f).subset := by
  have h0 : (r1, r2, p) ∈ (initState f).subset := Finset.mem_filter.mpr ⟨h, hne⟩
  exact (iterate_le_of_le f (Nat.zero_le (bigBound f + 1))).1 h0

/-- C4 witness: the non-reflexive input tuple `outlives(0, 1, 7)` of the
chain bundle is in the finalized `subset` relation. -/
theorem C4_witness : (0, 1, 7) ∈ (finalState exFactsT).subset :=
  C4_outlives_in_subset exFactsT 0 1 7 (by decide) (by decide)

/-- C5: a tuple `(b, p)` is in the finalized `borrow_live_at` relation iff
some region `r` has `requires(r, b, p)` in the finalized `requires`
relation and `(r, p)` in the synthesized `region_live_at` relation. -/
theorem C5_bla_iff (f : AllFacts) (b p : Nat) :
    (b, p) ∈ (finalState f).borrow_live_at ↔
      ∃ r, (r, b, p) ∈ (finalState f).requires ∧ (r, p) ∈ rla f := by
  constructor
  · exact iterate_bla_sound f (bigBound f + 1) b p
  · rintro ⟨r, h1, h2⟩
    rw [← final_bla_eq f]
    exact Finset.mem_union_right _ (mem_blaDerived.mpr ⟨r, h1, h2⟩)

/-- C6: the finalized `requires` relation is closed under kill-aware CFG
propagation (if `requires(r, b, p)` holds finally, `(b, p)` is not killed,
`(p, q)` is an edge and `r` is live at `q`, then `requires(r, b, q)` holds
finally); and the propagation rule derives exactly the tuples with such a
justification, so a `killed(b, p)` tuple blocks every propagation of loan
`b` across the edges out of `p`. -/
theorem C6_requires_cfg (f : AllFacts) :
    (∀ r b p q, (r, b, p) ∈ (finalState f).requires → (b, p) ∉ f.killed →
        (p, q) ∈ f.cfg_edge → (r, q) ∈ rla f → (r, b, q) ∈ (finalState f).requires) ∧
      ∀ (req : Finset (Nat × Nat × Nat)) (r b q : Nat),
        (r, b, q) ∈ requiresCfgDerived f req ↔
          ∃ p, (r, b, p) ∈ req ∧ (b, p) ∉ f.killed ∧ (p, q) ∈ f.cfg_edge ∧
            (r, q) ∈ rla f := by
  refine ⟨?_, fun req r b q => mem_requiresCfgDerived⟩
  intro r b p q h1 h2 h3 h4
  rw [← final_requires_eq f]
  refine Finset.mem_union_right _ (Finset.mem_union_right _ ?_)
  exact mem_requiresCfgDerived.mpr ⟨p, h1, h2, h3, h4⟩

/-- C6 witness: in scenario A, `requires(5, 0, 0)` propagates across the
edge `(0, 1)` to give `requires(5, 0, 1)` in the finalized relation. -/
theorem C6_witness : (5, 0, 1) ∈ (finalState exFactsA).requires :=
  (C6_requires_cfg exFactsA).1 5 0 0 1 (by decide) (by decide) (by decide) (by decide)

/-- C7: the synthesized `region_live_at` relation holds `(r, p)` iff the
pair is an input liveness fact, or `r` is a universal region and `p`
occurs as an endpoint of some `cfg_edge` tuple; nothing else is added. -/
theorem C7_rla_synthesis (f : AllFacts) (r p : Nat) :
    (r, p) ∈ rla f ↔
      (r, p) ∈ f.region_live_at ∨
        (r ∈ f.universal_region ∧ ∃ q, (p, q) ∈ f.cfg_edge ∨ (q, p) ∈ f.cfg_edge) := by
  unfold rla
  rw [Finset.mem_union, Finset.mem_product]
  simp only [mem_allPoints]

/-- C8: the round loop terminates: iterating the round step
`bigBound f + 1` times (a bound computed from the Region/Loan/Point atom
cardinalities of the input) reaches a state the step leaves unchanged. -/
theorem C8_termination (f : AllFacts) :
    step f (iterateStep f (bigBound f + 1)) = iterateStep f (bigBound f + 1) :=
  finalState_fix f

/-- C9: for either value of the diagnostics flag, the `errors` output maps
each point `p` to exactly the loans `b` with `(b, p)` in the finalized
`errors` relation, in the order of the loan atoms, without duplicates. -/
theorem C9_errors_projection (f : AllFacts) (d : Bool) (p : Nat) :
    (∀ b, b ∈ (compute d f).errors p ↔ (b, p) ∈ (finalState f).errors) ∧
      ((compute d f).errors p).Sorted (· ≤ ·) ∧ ((compute d f).errors p).Nodup := by
  refine ⟨?_, Finset.sort_sorted _ _, Finset.sort_nodup _ _⟩
  intro b
  show b ∈ (((finalState f).errors.filter (fun t => t.2 = p)).image Prod.fst).sort (· ≤ ·) ↔ _
  rw [Finset.mem_sort]
  simp only [Finset.mem_image, Finset.mem_filter]
  constructor
  · rintro ⟨⟨b', p'⟩, ⟨hm, hp⟩, rfl⟩
    simp only at hp
    subst hp
    exact hm
  · intro h
    exact ⟨(b, p), ⟨h, rfl⟩, rfl⟩

/-- C10: the diagnostics flag does not influence the `errors` output, and
with the flag off the four diagnostic projections are left empty. -/
theorem C10_dump_flag (f : AllFacts) :
    (compute true f).errors = (compute false f).errors ∧
      (compute false f).subset = (fun _ _ => ∅) ∧
      (compute false f).restricts = (fun _ _ => ∅) ∧
      (compute false f).region_live_at = (fun _ => []) ∧
      (compute false f).borrow_live_at = (fun _ => []) :=
  ⟨rfl, rfl, rfl, rfl, rfl⟩

end Polonius
